import Mathlib

/-!
Verification of the result-aggregation and learning-curve reshaping module
(`skll/experiments/output.py`).

The embedding models:
* result records as ordered association lists from field names to values
  (`ResultRec`), mirroring Python dicts;
* the filesystem as an association list from paths to parsed JSON documents
  (each document an array of records); a path absent from the list models a
  missing file;
* `_write_summary_file` and `_write_learning_curve_file` as functions from a
  filesystem, a path list (and the ablation flag) to an output value recording
  the header line written (if any), the emitted rows (as the augmented record
  passed to the csv writer), and a status;
* the column selection and melting of `generate_learning_curve_plots` and the
  y-limit computation of `_compute_ylimits_for_featureset` over exact
  rationals (floats are modelled as exact rational arithmetic).

The YAML decoding of the serialized feature list (done by the external
`ruamel.yaml` library in the source) is modelled as extraction from an
already-structured value: a record's `featureset` field holds the decoded
list of feature-name strings directly.
-/

namespace Skll

/-- A JSON/YAML-ish value stored in a result record field. -/
inductive JVal where
  | s (v : String)
  | n (v : ℚ)
  | strs (v : List String)
  | nums (v : List ℚ)
deriving DecidableEq, Repr

/-- A result record: an ordered association list from field names to values,
mirroring a Python dict (keys unique, insertion-ordered). -/
abbrev ResultRec := List (String × JVal)

/-- The filesystem: paths mapped to parsed JSON documents (arrays of records).
A path not in the list models a file that does not exist. -/
abbrev FileSys := List (String × List ResultRec)

/-- Look a path up in the filesystem (`Path.exists` + `json.load`). -/
def lookupFS : FileSys → String → Option (List ResultRec)
  | [], _ => none
  | (q, obj) :: rest, p => if q = p then some obj else lookupFS rest p

/-- Python dict lookup `r[k]` (first binding wins). -/
def getField : ResultRec → String → Option JVal
  | [], _ => none
  | (k, v) :: rest, key => if k = key then some v else getField rest key

/-- Python dict assignment `r[k] = v`: replaces an existing binding in place,
otherwise appends at the end (insertion order). -/
def setField : ResultRec → String → JVal → ResultRec
  | [], key, v => [(key, v)]
  | (k, w) :: rest, key, v =>
      if k = key then (k, v) :: rest else (k, w) :: setField rest key v

/-- The keys of a record, in insertion order. -/
def recKeys (r : ResultRec) : List String := r.map Prod.fst

/-- The characters of the ablation marker `"_minus_"`. -/
def marker : List Char := "_minus_".data

/-- Split a character list at the first occurrence of `sep`, returning the
parts before and after it, or `none` when `sep` does not occur. -/
def splitFirst (sep : List Char) : List Char → Option (List Char × List Char)
  | [] => if sep.isPrefixOf ([] : List Char) then some ([], []) else none
  | c :: rest =>
      if sep.isPrefixOf (c :: rest) then some ([], (c :: rest).drop sep.length)
      else (splitFirst sep rest).map (fun pr => (c :: pr.1, pr.2))

/-- Python `"_minus_" in name`. -/
def containsMarker (s : String) : Bool := (splitFirst marker s.data).isSome

/-- Python `name.split("_minus_", 1)[0]`: the part of the name before the
first ablation marker, or the whole name when the marker is absent. -/
def parentOf (s : String) : String :=
  match splitFirst marker s.data with
  | some pr => String.mk pr.1
  | none => s

/-- Python set union `s.update(t)` over feature-name sets represented as
duplicate-free lists (membership is the semantics that matters). -/
def setUnion : List String → List String → List String
  | s, [] => s
  | s, x :: rest => setUnion (if x ∈ s then s else s ++ [x]) rest

/-- Python set difference `s.difference(t)`. -/
def setDiff (s t : List String) : List String := s.filter (fun x => x ∉ t)

/-- The accumulating `all_features` map (`defaultdict(set)`): parent
featureset name to the set of feature names seen so far. -/
abbrev AllF := List (String × List String)

/-- `all_features[p]` with `defaultdict(set)` semantics: empty set when the
key is absent. -/
def getAllF : AllF → String → List String
  | [], _ => []
  | (k, v) :: rest, p => if k = p then v else getAllF rest p

/-- `all_features[p].update(feats)` with `defaultdict(set)` semantics. -/
def updAllF : AllF → String → List String → AllF
  | [], p, feats => [(p, setUnion [] feats)]
  | (k, v) :: rest, p, feats =>
      if k = p then (k, setUnion v feats) :: rest
      else (k, v) :: updAllF rest p feats

/-- The external YAML decode of a serialized feature list, modelled as
extraction from the structured value (see the module docstring). -/
def yamlLoadStrs : JVal → Option (List String)
  | .strs v => some v
  | _ => none

/-- Lexicographic (code-point) comparison on strings, as Python compares
strings when sorting. -/
def lexLe : List Char → List Char → Bool
  | [], _ => true
  | _ :: _, [] => false
  | a :: as, b :: bs => if a < b then true else if b < a then false else lexLe as bs

/-- Boolean string comparison used by `sorted(...)`. -/
def strLeB (a b : String) : Bool := lexLe a.data b.data

/-- Insert into a sorted list of strings. -/
def insertSorted (x : String) : List String → List String
  | [] => [x]
  | y :: ys => if strLeB x y then x :: y :: ys else y :: insertSorted x ys

/-- Python `sorted(...)` on a list of strings (insertion sort). -/
def sortStrs (l : List String) : List String := l.foldr insertSorted []

/-- Python `json.dumps` on a list of plain strings. -/
def jsonDumpStrList (xs : List String) : String :=
  "[" ++ String.intercalate ", " (xs.map (fun x => "\"" ++ x ++ "\"")) ++ "]"

/-- Membership-based deduplication, modelling Python `set(keys)`. -/
def dedupStrs : List String → List String
  | [] => []
  | x :: rest => if x ∈ rest then dedupStrs rest else x :: dedupStrs rest

/-- Python `set.add`: insert when absent. -/
def insertNew (x : String) (l : List String) : List String :=
  if x ∈ l then l else x :: l

/-- Status of a run of `_write_summary_file`: either an abnormal end (with
nothing or only part of the output written) or normal completion. -/
inductive SumStatus where
  | missingFile (p : String)
  | loadIndexError (p : String)
  | loadFieldError (p : String)
  | headerIndexError
  | rowError
  | finished
deriving DecidableEq, Repr

/-- What `_write_summary_file` wrote: the header line (if it was reached), the
rows handed to the csv writer (each the augmented record; the csv writer
projects it onto the header, ignoring extras and leaving absences blank), and
the status. -/
structure SumOut where
  header : Option (List String)
  rows : List ResultRec
  status : SumStatus
deriving DecidableEq, Repr

/-- The loading loop of `_write_summary_file` (lines 643-660): for each path,
check existence (missing file: log and return), parse, read
`obj[0]["featureset_name"]` (IndexError on an empty array, KeyError on a
missing key), and when ablation is on and the name contains the marker,
union the decoded `obj[0]["featureset"]` into `all_features[parent]`. -/
def summaryLoadLoop (fs : FileSys) (abl : ℤ) :
    List String → List ResultRec → AllF → Except SumStatus (List ResultRec × AllF)
  | [], acc, af => .ok (acc, af)
  | p :: rest, acc, af =>
    match lookupFS fs p with
    | none => .error (.missingFile p)
    | some [] => .error (.loadIndexError p)
    | some (r0 :: tl) =>
      match getField r0 "featureset_name" with
      | none => .error (.loadFieldError p)
      | some fsname =>
        if abl = 0 then summaryLoadLoop fs abl rest (acc ++ r0 :: tl) af
        else
          match fsname with
          | .s name =>
            if containsMarker name then
              match (getField r0 "featureset").bind yamlLoadStrs with
              | some feats =>
                  summaryLoadLoop fs abl rest (acc ++ r0 :: tl)
                    (updAllF af (parentOf name) feats)
              | none => .error (.loadFieldError p)
            else summaryLoadLoop fs abl rest (acc ++ r0 :: tl) af
          | _ => .error (.loadFieldError p)

/-- Header construction of `_write_summary_file` (lines 663-666):
`sorted(set(learner_result_dicts[0].keys()) - {"result_table", "descriptive"})`
plus `ablated_features` when ablation is on; `none` models the IndexError on
an empty record list. -/
def summaryHeader (abl : ℤ) : List ResultRec → Option (List String)
  | [] => none
  | r0 :: _ =>
    let base := (dedupStrs (recKeys r0)).filter
      (fun k => !(k == "result_table" || k == "descriptive"))
    let cols := if abl = 0 then base else insertNew "ablated_features" base
    some (sortStrs cols)

/-- Row augmentation of `_write_summary_file` (lines 671-678): fetch
`lrd["featureset_name"]`; when ablation is on, compute the set difference
between `all_features[parent]` and the row's own decoded feature list and
store it (empty string when empty, else the sorted JSON array) under
`ablated_features`. `none` models an exception (missing key / wrong shape). -/
def augmentRecord (af : AllF) (abl : ℤ) (r : ResultRec) : Option ResultRec :=
  match getField r "featureset_name" with
  | none => none
  | some fsname =>
    if abl = 0 then some r
    else
      match fsname with
      | .s name =>
        match (getField r "featureset").bind yamlLoadStrs with
        | some own =>
          let ab := setDiff (getAllF af (parentOf name)) own
          some (setField r "ablated_features"
            (.s (if ab = [] then "" else jsonDumpStrList (sortStrs ab))))
        | none => none
      | _ => none

/-- The row-writing loop of `_write_summary_file` (lines 671-681): rows
written so far plus the final status (an exception stops the loop). -/
def summaryRowsLoop (af : AllF) (abl : ℤ) : List ResultRec → List ResultRec × SumStatus
  | [] => ([], .finished)
  | r :: rest =>
    match augmentRecord af abl r with
    | none => ([], .rowError)
    | some r' =>
      let pr := summaryRowsLoop af abl rest
      (r' :: pr.1, pr.2)

/-- `_write_summary_file(result_json_paths, output_file, ablation)`. -/
def write_summary_file (fs : FileSys) (paths : List String) (abl : ℤ) : SumOut :=
  match summaryLoadLoop fs abl paths [] [] with
  | .error st => ⟨none, [], st⟩
  | .ok (lrds, af) =>
    match summaryHeader abl lrds with
    | none => ⟨none, [], .headerIndexError⟩
    | some hdr =>
      let pr := summaryRowsLoop af abl lrds
      ⟨some hdr, pr.1, pr.2⟩

/-- The `all_features` accumulator at the end of the loading loop of
`_write_summary_file`, when loading completes. -/
def summaryAllFeatures (fs : FileSys) (paths : List String) (abl : ℤ) : Option AllF :=
  match summaryLoadLoop fs abl paths [] [] with
  | .ok pr => some pr.2
  | .error _ => none

/-- Status of a run of `_write_learning_curve_file`. -/
inductive LCStatus where
  | missingFile (p : String)
  | rowError
  | finished
deriving DecidableEq, Repr

/-- What `_write_learning_curve_file` wrote (same reading as `SumOut`). -/
structure LCOut where
  header : Option (List String)
  rows : List ResultRec
  status : LCStatus
deriving DecidableEq, Repr

/-- The fixed header of the learning-curve TSV (lines 539-553). -/
def lcHeader : List String :=
  ["featureset_name", "learner_name", "metric", "train_set_name",
   "training_set_size", "train_score_mean", "test_score_mean", "fit_time_mean",
   "train_score_std", "test_score_std", "fit_time_std",
   "scikit_learn_version", "version"]

/-- The loading loop of `_write_learning_curve_file` (lines 523-536): missing
file logs and returns, otherwise records are concatenated in input order. -/
def lcLoadLoop (fs : FileSys) : List String → List ResultRec → Except String (List ResultRec)
  | [], acc => .ok acc
  | p :: rest, acc =>
    match lookupFS fs p with
    | none => .error p
    | some obj => lcLoadLoop fs rest (acc ++ obj)

/-- Fetch a field expected to hold a numeric array. -/
def getNums (r : ResultRec) (k : String) : Option (List ℚ) :=
  match getField r k with
  | some (.nums v) => some v
  | _ => none

/-- Python `zip` over the seven parallel sequences: stops at the shortest. -/
def zip7 : List ℚ → List ℚ → List ℚ → List ℚ → List ℚ → List ℚ → List ℚ →
    List (ℚ × ℚ × ℚ × ℚ × ℚ × ℚ × ℚ)
  | a :: as, b :: bs, c :: cs, d :: ds, e :: es, f :: fl, g :: gs =>
      (a, b, c, d, e, f, g) :: zip7 as bs cs ds es fl gs
  | _, _, _, _, _, _, _ => []

/-- The per-iteration field assignments of the learning-curve row loop
(lines 589-595), in source order. -/
def lcSetSizeFields (r : ResultRec) (t : ℚ × ℚ × ℚ × ℚ × ℚ × ℚ × ℚ) : ResultRec :=
  setField (setField (setField (setField (setField (setField (setField r
    "training_set_size" (.n t.1))
    "train_score_mean" (.n t.2.1))
    "test_score_mean" (.n t.2.2.1))
    "fit_time_mean" (.n t.2.2.2.1))
    "train_score_std" (.n t.2.2.2.2.1))
    "test_score_std" (.n t.2.2.2.2.2.1))
    "fit_time_std" (.n t.2.2.2.2.2.2)

/-- The rows `_write_learning_curve_file` emits for one record
(lines 560-597): fetch the seven parallel arrays and `grid_objective`
(KeyError modelled as `none`), copy `grid_objective` to `metric`, then one
row per `zip` iteration. -/
def rowsForRecord (r : ResultRec) : Option (List ResultRec) :=
  match getNums r "computed_curve_train_sizes",
        getNums r "learning_curve_train_scores_means",
        getNums r "learning_curve_test_scores_means",
        getNums r "learning_curve_fit_times_means",
        getNums r "learning_curve_train_scores_stds",
        getNums r "learning_curve_test_scores_stds",
        getNums r "learning_curve_fit_times_stds",
        getField r "grid_objective" with
  | some sz, some trm, some tem, some ftm, some trs, some tes, some fts, some gobj =>
      some ((zip7 sz trm tem ftm trs tes fts).map
        (lcSetSizeFields (setField r "metric" gobj)))
  | _, _, _, _, _, _, _, _ => none

/-- The row-writing loop of `_write_learning_curve_file`. -/
def lcRowsLoop : List ResultRec → List ResultRec × LCStatus
  | [] => ([], .finished)
  | r :: rest =>
    match rowsForRecord r with
    | none => ([], .rowError)
    | some rs =>
      let pr := lcRowsLoop rest
      (rs ++ pr.1, pr.2)

/-- `_write_learning_curve_file(result_json_paths, output_file)`. -/
def write_learning_curve_file (fs : FileSys) (paths : List String) : LCOut :=
  match lcLoadLoop fs paths [] with
  | .error p => ⟨none, [], .missingFile p⟩
  | .ok lrds =>
    let pr := lcRowsLoop lrds
    ⟨some lcHeader, pr.1, pr.2⟩

/-- The columns excluded from the score frame by
`generate_learning_curve_plots` (lines 331-342). -/
def scoreExcluded : List String :=
  ["train_set_name", "fit_time_mean", "fit_time_std", "scikit_learn_version", "version"]

/-- `score_columns` of `generate_learning_curve_plots`. -/
def score_columns (cols : List String) : List String :=
  cols.filter (fun c => c ∉ scoreExcluded)

/-- The columns excluded from the time frame by
`generate_learning_curve_plots` (lines 343-356). -/
def timeExcluded : List String :=
  ["train_set_name", "train_score_mean", "train_score_std", "test_score_mean",
   "test_score_std", "scikit_learn_version", "version"]

/-- `time_columns` of `generate_learning_curve_plots`. -/
def time_columns (cols : List String) : List String :=
  cols.filter (fun c => c ∉ timeExcluded)

/-- One row of the score-specific wide frame `df[score_columns]`: exactly the
eight columns the score frame retains. -/
structure ScoreRow where
  featureset_name : String
  learner_name : String
  metric : String
  training_set_size : ℚ
  train_score_mean : ℚ
  test_score_mean : ℚ
  train_score_std : ℚ
  test_score_std : ℚ
deriving DecidableEq, Repr

/-- One row of the melted score frame: the id columns kept alongside, plus the
`variable`/`value` pair produced by `pd.melt`. -/
structure MeltedScoreRow where
  featureset_name : String
  learner_name : String
  metric : String
  training_set_size : ℚ
  train_score_std : ℚ
  test_score_std : ℚ
  varName : String
  value : ℚ
deriving DecidableEq, Repr

/-- The melted row `pd.melt` produces from a wide row for the value column
`train_score_mean`. -/
def meltTrainRow (r : ScoreRow) : MeltedScoreRow :=
  { featureset_name := r.featureset_name, learner_name := r.learner_name,
    metric := r.metric, training_set_size := r.training_set_size,
    train_score_std := r.train_score_std, test_score_std := r.test_score_std,
    varName := "train_score_mean", value := r.train_score_mean }

/-- The melted row `pd.melt` produces from a wide row for the value column
`test_score_mean`. -/
def meltTestRow (r : ScoreRow) : MeltedScoreRow :=
  { featureset_name := r.featureset_name, learner_name := r.learner_name,
    metric := r.metric, training_set_size := r.training_set_size,
    train_score_std := r.train_score_std, test_score_std := r.test_score_std,
    varName := "test_score_mean", value := r.test_score_mean }

/-- `pd.melt(df_score, id_vars=all non-mean columns)` (lines 360-363): one
block of rows per value column, stacked in column order. -/
def meltScores (rows : List ScoreRow) : List MeltedScoreRow :=
  rows.map meltTrainRow ++ rows.map meltTestRow

/-- Inverse of `meltScores`: pair the train block with the test block and
rebuild the wide rows. -/
def unmeltScores (l : List MeltedScoreRow) : List ScoreRow :=
  ((l.take (l.length / 2)).zip (l.drop (l.length / 2))).map (fun pr =>
    { featureset_name := pr.1.featureset_name, learner_name := pr.1.learner_name,
      metric := pr.1.metric, training_set_size := pr.1.training_set_size,
      train_score_mean := pr.1.value, test_score_mean := pr.2.value,
      train_score_std := pr.1.train_score_std, test_score_std := pr.1.test_score_std })

/-- `np.min` over a non-empty list (`none` models the error on empty input). -/
def listMinQ : List ℚ → Option ℚ
  | [] => none
  | x :: rest =>
    match listMinQ rest with
    | none => some x
    | some m => some (min x m)

/-- `np.max` over a non-empty list (`none` models the error on empty input). -/
def listMaxQ : List ℚ → Option ℚ
  | [] => none
  | x :: rest =>
    match listMaxQ rest with
    | none => some x
    | some m => some (max x m)

/-- `df_train["value"] - df_train["train_score_std"]` restricted to one
metric (line 62). -/
def trainLowerVals (df : List MeltedScoreRow) (m : String) : List ℚ :=
  (df.filter (fun r => r.varName == "train_score_mean" && r.metric == m)).map
    (fun r => r.value - r.train_score_std)

/-- `df_test["value"] - df_test["test_score_std"]` restricted to one metric. -/
def testLowerVals (df : List MeltedScoreRow) (m : String) : List ℚ :=
  (df.filter (fun r => r.varName == "test_score_mean" && r.metric == m)).map
    (fun r => r.value - r.test_score_std)

/-- `df_train["value"] + df_train["train_score_std"]` restricted to one
metric. -/
def trainUpperVals (df : List MeltedScoreRow) (m : String) : List ℚ :=
  (df.filter (fun r => r.varName == "train_score_mean" && r.metric == m)).map
    (fun r => r.value + r.train_score_std)

/-- `df_test["value"] + df_test["test_score_std"]` restricted to one metric. -/
def testUpperVals (df : List MeltedScoreRow) (m : String) : List ℚ :=
  (df.filter (fun r => r.varName == "test_score_mean" && r.metric == m)).map
    (fun r => r.value + r.test_score_std)

/-- One iteration of `_compute_ylimits_for_featureset` (lines 58-81):
`none` models the `np.min`/`np.max` error on an empty concatenation. -/
def ylimitsFor (df : List MeltedScoreRow) (m : String) : Option (ℚ × ℚ) :=
  match listMinQ (trainLowerVals df m ++ testLowerVals df m),
        listMaxQ (trainUpperVals df m ++ testUpperVals df m) with
  | some mn, some mx =>
      some
        (if mn < 0 then max (mn - 1/10) ((⌊mn⌋ : ℚ) - 1/20) else 0,
         if mx > 0 then min (mx + 1/10) ((⌈mx⌉ : ℚ) + 1/20) else 0)
  | _, _ => none

/-- `_compute_ylimits_for_featureset(df, metrics)`. -/
def compute_ylimits_for_featureset (df : List MeltedScoreRow) (metrics : List String) :
    Option (List (String × ℚ × ℚ)) :=
  metrics.mapM (fun m => (ylimitsFor df m).map (fun lu => (m, lu)))

/-- The header the claim asserts for the summary file: field names collected
across all loaded records (the code uses only the first record). -/
def claimedSummaryHeader (abl : ℤ) (lrds : List ResultRec) : List String :=
  let base := (dedupStrs (lrds.map recKeys).flatten).filter
    (fun k => !(k == "result_table" || k == "descriptive"))
  let cols := if abl = 0 then base else insertNew "ablated_features" base
  sortStrs cols

/-- The score-frame exclusion list the claim asserts: only fit-time and
version fields (the code also drops `train_set_name`). -/
def claimedScoreExcluded : List String :=
  ["fit_time_mean", "fit_time_std", "scikit_learn_version", "version"]

/-- The score columns under the claim's exclusion list. -/
def claimed_score_columns (cols : List String) : List String :=
  cols.filter (fun c => c ∉ claimedScoreExcluded)

/-- The time-frame exclusion list the claim asserts: score and version fields
only (the code also drops `train_set_name`). -/
def claimedTimeExcluded : List String :=
  ["train_score_mean", "train_score_std", "test_score_mean", "test_score_std",
   "scikit_learn_version", "version"]

/-- The time columns under the claim's exclusion list. -/
def claimed_time_columns (cols : List String) : List String :=
  cols.filter (fun c => c ∉ claimedTimeExcluded)

/-- A parsed document is loadable by the summary loading loop without an
exception: non-empty, first record has `featureset_name`, and (under
ablation) a marker-bearing name has a decodable `featureset`. -/
def fileLoads (abl : ℤ) : List ResultRec → Bool
  | [] => false
  | r0 :: _ =>
    match getField r0 "featureset_name" with
    | none => false
    | some fsname =>
      if abl = 0 then true
      else
        match fsname with
        | .s name =>
          if containsMarker name then
            ((getField r0 "featureset").bind yamlLoadStrs).isSome
          else true
        | _ => false

/-- Every file that exists at this path is loadable (missing is allowed). -/
def cleanWhenPresent (fs : FileSys) (abl : ℤ) (p : String) : Bool :=
  match lookupFS fs p with
  | none => true
  | some obj => fileLoads abl obj

/-- The file at this path exists and is either an empty array or loadable. -/
def presentAndLoadsOrEmpty (fs : FileSys) (abl : ℤ) (p : String) : Bool :=
  match lookupFS fs p with
  | none => false
  | some [] => true
  | some obj => fileLoads abl obj

/-- The first path in the list that does not name an existing file. -/
def firstMissing (fs : FileSys) : List String → Option String
  | [] => none
  | p :: rest => if lookupFS fs p = none then some p else firstMissing fs rest

/-- The first path in the list whose document is an empty array. -/
def firstEmptyDoc (fs : FileSys) : List String → Option String
  | [] => none
  | p :: rest => if lookupFS fs p = some [] then some p else firstEmptyDoc fs rest

/-- Decidable equality for `Except`, used to evaluate the loops on concrete
inputs. -/
instance {ε α : Type} [DecidableEq ε] [DecidableEq α] :
    DecidableEq (Except ε α) := fun a b =>
  match a, b with
  | .error e, .error e' =>
    if h : e = e' then isTrue (by rw [h])
    else isFalse (by intro hc; cases hc; exact h rfl)
  | .ok x, .ok y =>
    if h : x = y then isTrue (by rw [h])
    else isFalse (by intro hc; cases hc; exact h rfl)
  | .error _, .ok _ => isFalse (by intro hc; cases hc)
  | .ok _, .error _ => isFalse (by intro hc; cases hc)

/-! Concrete instances used by witnesses and counterexamples. -/

/-- A minimal well-formed summary record. -/
def wRec : ResultRec := [("featureset_name", .s "A"), ("accuracy", .n 1)]

/-- A filesystem with one existing file, used with a path list that also
names a missing file. -/
def wFS : FileSys := [("a.json", [wRec])]

/-- A filesystem with one existing file whose document is an empty array. -/
def wFSE : FileSys := [("e.json", [])]

/-- Record with keys `featureset_name`, `accuracy`. -/
def cRec1 : ResultRec := [("featureset_name", .s "A"), ("accuracy", .n 1)]

/-- Record with the extra key `pearson` not present in `cRec1`. -/
def cRec2 : ResultRec :=
  [("featureset_name", .s "A"), ("accuracy", .n 1), ("pearson", .n 0)]

/-- A document whose records do not all share the same key set. -/
def cFS4 : FileSys := [("p.json", [cRec1, cRec2])]

/-- First record of the ablation counterexample file: child `A_minus_f1`
with feature list `[f2]`. -/
def cRec3a : ResultRec :=
  [("featureset_name", .s "A_minus_f1"), ("featureset", .strs ["f2"])]

/-- Second record of the ablation counterexample file: child `A_minus_f2`
with feature list `[f1]` (never unioned by pass 1). -/
def cRec3b : ResultRec :=
  [("featureset_name", .s "A_minus_f2"), ("featureset", .strs ["f1"])]

/-- A single input file holding two ablation children of parent `A`. -/
def cFS3 : FileSys := [("p.json", [cRec3a, cRec3b])]

/-- An ablation run with two children of `A` in separate files, so that the
per-file pass 1 sees both. -/
def wFS2 : FileSys := [("pa.json", [cRec3a]), ("pb.json", [cRec3b])]

/-- A learning-curve record with all seven parallel arrays of length 2. -/
def wLCRec : ResultRec :=
  [("featureset_name", .s "A"), ("learner_name", .s "L"),
   ("grid_objective", .s "accuracy"),
   ("computed_curve_train_sizes", .nums [10, 20]),
   ("learning_curve_train_scores_means", .nums [5, 6]),
   ("learning_curve_test_scores_means", .nums [4, 5]),
   ("learning_curve_fit_times_means", .nums [1, 2]),
   ("learning_curve_train_scores_stds", .nums [1, 1]),
   ("learning_curve_test_scores_stds", .nums [1, 1]),
   ("learning_curve_fit_times_stds", .nums [2, 2])]

/-- A ragged learning-curve record: sizes has length 2 but the train-means
array has length 1. -/
def cLCRagged : ResultRec :=
  [("featureset_name", .s "A"), ("learner_name", .s "L"),
   ("grid_objective", .s "accuracy"),
   ("computed_curve_train_sizes", .nums [10, 20]),
   ("learning_curve_train_scores_means", .nums [5]),
   ("learning_curve_test_scores_means", .nums [4, 5]),
   ("learning_curve_fit_times_means", .nums [1, 2]),
   ("learning_curve_train_scores_stds", .nums [1, 1]),
   ("learning_curve_test_scores_stds", .nums [1, 1]),
   ("learning_curve_fit_times_stds", .nums [2, 2])]

/-- Filesystem for the ragged-record counterexample. -/
def cFS6 : FileSys := [("p.json", [cLCRagged])]

/-- A single melted observation used by the y-limits witness. -/
def wPlotRow : MeltedScoreRow :=
  { featureset_name := "A", learner_name := "L", metric := "accuracy",
    training_set_size := 10, train_score_std := 1/20, test_score_std := 1/20,
    varName := "train_score_mean", value := -1/2 }

/-- A wide score row used by the melt witness. -/
def wScoreRow : ScoreRow :=
  { featureset_name := "A", learner_name := "L", metric := "accuracy",
    training_set_size := 10, train_score_mean := 1/2, test_score_mean := 2/5,
    train_score_std := 1/20, test_score_std := 1/20 }

/-! Basic lemmas about the record and set operations. -/

theorem getField_setField_self (r : ResultRec) (k : String) (v : JVal) :
    getField (setField r k v) k = some v := by
  induction r with
  | nil => simp [setField, getField]
  | cons hd tl ih =>
    obtain ⟨k', w⟩ := hd
    by_cases h : k' = k
    · simp [setField, h, getField]
    · simp [setField, h, getField, ih]

theorem getField_setField_other (r : ResultRec) (k : String) (v : JVal)
    (k' : String) (h : k ≠ k') :
    getField (setField r k v) k' = getField r k' := by
  induction r with
  | nil => simp [setField, getField, h]
  | cons hd tl ih =>
    obtain ⟨k0, w⟩ := hd
    by_cases h0 : k0 = k
    · subst h0
      simp [setField, getField, h]
    · simp [setField, h0, getField, ih]

theorem mem_setUnion (x : String) : ∀ (t s : List String),
    x ∈ setUnion s t ↔ x ∈ s ∨ x ∈ t := by
  intro t
  induction t with
  | nil => intro s; simp [setUnion]
  | cons y ys ih =>
    intro s
    by_cases hy : y ∈ s
    · simp only [setUnion, if_pos hy, ih]
      constructor
      · rintro (h | h)
        · exact Or.inl h
        · exact Or.inr (List.mem_cons_of_mem _ h)
      · rintro (h | h)
        · exact Or.inl h
        · rcases List.mem_cons.mp h with h | h
          · exact Or.inl (h ▸ hy)
          · exact Or.inr h
    · simp only [setUnion, if_neg hy, ih, List.mem_append, List.mem_singleton,
        List.mem_cons]
      tauto

theorem mem_getAllF_updAllF_self (af : AllF) (p : String) (feats : List String)
    (x : String) (hx : x ∈ feats) :
    x ∈ getAllF (updAllF af p feats) p := by
  induction af with
  | nil => simp [updAllF, getAllF, mem_setUnion, hx]
  | cons hd tl ih =>
    obtain ⟨k, v⟩ := hd
    by_cases h : k = p
    · simp [updAllF, h, getAllF, mem_setUnion, hx]
    · simp [updAllF, h, getAllF, ih]

theorem getAllF_updAllF_mono (af : AllF) (p q : String) (feats : List String)
    (x : String) (hx : x ∈ getAllF af p) :
    x ∈ getAllF (updAllF af q feats) p := by
  induction af with
  | nil => simp [getAllF] at hx
  | cons hd tl ih =>
    obtain ⟨k, v⟩ := hd
    by_cases hk : k = q
    · subst hk
      by_cases hp : k = p
      · subst hp
        simp only [getAllF] at hx
        simp at hx
        simp [updAllF, getAllF, mem_setUnion, hx]
      · simp only [getAllF, if_neg hp] at hx
        simp [updAllF, getAllF, hp, hx]
    · by_cases hp : k = p
      · subst hp
        simp only [getAllF] at hx
        simp at hx
        simp [updAllF, hk, getAllF, hx]
      · simp only [getAllF, if_neg hp] at hx
        simp [updAllF, hk, getAllF, hp, ih hx]

theorem mem_dedupStrs (x : String) : ∀ l : List String,
    x ∈ dedupStrs l ↔ x ∈ l := by
  intro l
  induction l with
  | nil => simp [dedupStrs]
  | cons y ys ih =>
    by_cases hy : y ∈ ys
    · simp only [dedupStrs, if_pos hy, ih, List.mem_cons]
      constructor
      · exact Or.inr
      · rintro (h | h)
        · exact h ▸ hy
        · exact h
    · simp [dedupStrs, if_neg hy, List.mem_cons, ih]

theorem mem_insertNew (x y : String) (l : List String) :
    x ∈ insertNew y l ↔ x = y ∨ x ∈ l := by
  unfold insertNew
  by_cases hy : y ∈ l
  · simp only [if_pos hy]
    constructor
    · exact Or.inr
    · rintro (h | h)
      · exact h ▸ hy
      · exact h
  · simp [if_neg hy]

theorem mem_insertSorted (x y : String) : ∀ l : List String,
    x ∈ insertSorted y l ↔ x = y ∨ x ∈ l := by
  intro l
  induction l with
  | nil => simp [insertSorted]
  | cons z zs ih =>
    unfold insertSorted
    by_cases h : strLeB y z
    · simp [h, List.mem_cons]
    · simp only [if_neg h, List.mem_cons, ih]
      tauto

theorem mem_sortStrs (x : String) : ∀ l : List String,
    x ∈ sortStrs l ↔ x ∈ l := by
  intro l
  induction l with
  | nil => simp [sortStrs]
  | cons y ys ih =>
    simp only [sortStrs, List.foldr_cons] at *
    rw [mem_insertSorted, ih, List.mem_cons]

theorem lexLe_total : ∀ a b : List Char, lexLe a b = true ∨ lexLe b a = true := by
  intro a
  induction a with
  | nil => intro b; exact Or.inl rfl
  | cons c cs ih =>
    intro b
    cases b with
    | nil => exact Or.inr rfl
    | cons d ds =>
      by_cases hcd : c < d
      · left; simp [lexLe, hcd]
      · by_cases hdc : d < c
        · right; simp [lexLe, hdc, asymm hdc]
        · rcases ih ds with h | h
          · left; simp [lexLe, hcd, hdc, h]
          · right; simp [lexLe, hcd, hdc, h]

theorem strLeB_total (a b : String) : strLeB a b = true ∨ strLeB b a = true :=
  lexLe_total a.data b.data

/-- Sortedness as an adjacent-pairs chain under the Python string order. -/
def StrSorted : List String → Prop := List.Chain' (fun a b => strLeB a b = true)

theorem strSorted_insertSorted (x : String) : ∀ l : List String,
    StrSorted l → StrSorted (insertSorted x l) := by
  intro l
  induction l with
  | nil =>
    intro _
    show List.Chain' _ [x]
    exact List.chain'_singleton x
  | cons y ys ih =>
    intro hl
    unfold insertSorted
    by_cases h : strLeB x y
    · simp only [if_pos h]
      exact List.chain'_cons.mpr ⟨h, hl⟩
    · simp only [if_neg h]
      have hyx : strLeB y x = true := by
        rcases strLeB_total x y with h' | h'
        · exact absurd h' h
        · exact h'
      have hys : StrSorted ys := List.Chain'.tail hl
      have hins : StrSorted (insertSorted x ys) := ih hys
      cases ys with
      | nil =>
        exact List.chain'_cons.mpr ⟨hyx, List.chain'_singleton x⟩
      | cons z zs =>
        by_cases hz : strLeB x z
        · have heq : insertSorted x (z :: zs) = x :: z :: zs := by
            simp [insertSorted, hz]
          rw [heq] at hins ⊢
          exact List.chain'_cons.mpr ⟨hyx, hins⟩
        · have heq : insertSorted x (z :: zs) = z :: insertSorted x zs := by
            simp [insertSorted, hz]
          rw [heq] at hins ⊢
          have hyz : strLeB y z = true := (List.chain'_cons.mp hl).1
          exact List.chain'_cons.mpr ⟨hyz, hins⟩

theorem strSorted_sortStrs : ∀ l : List String, StrSorted (sortStrs l) := by
  intro l
  induction l with
  | nil => simp [sortStrs, StrSorted]
  | cons y ys ih =>
    simpa [sortStrs] using strSorted_insertSorted y (sortStrs ys) ih

theorem listMinQ_isSome : ∀ l : List ℚ, l ≠ [] → (listMinQ l).isSome = true := by
  intro l h
  cases l with
  | nil => exact absurd rfl h
  | cons x rest =>
    unfold listMinQ
    cases listMinQ rest <;> simp

theorem listMinQ_spec : ∀ (l : List ℚ) (m : ℚ), listMinQ l = some m →
    m ∈ l ∧ ∀ x ∈ l, m ≤ x := by
  intro l
  induction l with
  | nil => intro m h; simp [listMinQ] at h
  | cons x rest ih =>
    intro m h
    unfold listMinQ at h
    cases hr : listMinQ rest with
    | none =>
      rw [hr] at h
      cases rest with
      | nil =>
        simp at h
        subst h
        exact ⟨List.mem_singleton_self x, by simp⟩
      | cons y ys => exact absurd hr (by
          have := listMinQ_isSome (y :: ys) (by simp)
          intro hc
          rw [hc] at this
          simp at this)
    | some mr =>
      rw [hr] at h
      simp at h
      subst h
      obtain ⟨hmem, hle⟩ := ih mr hr
      constructor
      · rcases min_cases x mr with ⟨he, _⟩ | ⟨he, _⟩
        · rw [he]; exact List.mem_cons_self x rest
        · rw [he]; exact List.mem_cons_of_mem _ hmem
      · intro z hz
        rcases List.mem_cons.mp hz with hz | hz
        · rw [hz]; exact min_le_left x mr
        · exact le_trans (min_le_right x mr) (hle z hz)

theorem listMaxQ_isSome : ∀ l : List ℚ, l ≠ [] → (listMaxQ l).isSome = true := by
  intro l h
  cases l with
  | nil => exact absurd rfl h
  | cons x rest =>
    unfold listMaxQ
    cases listMaxQ rest <;> simp

theorem listMaxQ_spec : ∀ (l : List ℚ) (m : ℚ), listMaxQ l = some m →
    m ∈ l ∧ ∀ x ∈ l, x ≤ m := by
  intro l
  induction l with
  | nil => intro m h; simp [listMaxQ] at h
  | cons x rest ih =>
    intro m h
    unfold listMaxQ at h
    cases hr : listMaxQ rest with
    | none =>
      rw [hr] at h
      cases rest with
      | nil =>
        simp at h
        subst h
        exact ⟨List.mem_singleton_self x, by simp⟩
      | cons y ys => exact absurd hr (by
          have := listMaxQ_isSome (y :: ys) (by simp)
          intro hc
          rw [hc] at this
          simp at this)
    | some mr =>
      rw [hr] at h
      simp at h
      subst h
      obtain ⟨hmem, hle⟩ := ih mr hr
      constructor
      · rcases max_cases x mr with ⟨he, _⟩ | ⟨he, _⟩
        · rw [he]; exact List.mem_cons_self x rest
        · rw [he]; exact List.mem_cons_of_mem _ hmem
      · intro z hz
        rcases List.mem_cons.mp hz with hz | hz
        · rw [hz]; exact le_max_left x mr
        · exact le_trans (hle z hz) (le_max_right x mr)

/-! Lemmas about the loading and writing loops. -/

theorem firstMissing_spec (fs : FileSys) : ∀ (paths : List String) (p : String),
    firstMissing fs paths = some p → p ∈ paths ∧ lookupFS fs p = none := by
  intro paths
  induction paths with
  | nil => intro p h; simp [firstMissing] at h
  | cons q rest ih =>
    intro p h
    unfold firstMissing at h
    by_cases hq : lookupFS fs q = none
    · rw [if_pos hq] at h
      cases h
      exact ⟨List.mem_cons_self q rest, hq⟩
    · rw [if_neg hq] at h
      obtain ⟨hmem, hnone⟩ := ih p h
      exact ⟨List.mem_cons_of_mem q hmem, hnone⟩

theorem firstMissing_isSome (fs : FileSys) : ∀ (paths : List String) (p : String),
    p ∈ paths → lookupFS fs p = none → (firstMissing fs paths).isSome = true := by
  intro paths
  induction paths with
  | nil => intro p h; simp at h
  | cons q rest ih =>
    intro p hmem hnone
    unfold firstMissing
    by_cases hq : lookupFS fs q = none
    · rw [if_pos hq]; rfl
    · rw [if_neg hq]
      rcases List.mem_cons.mp hmem with h | h
      · exact absurd (h ▸ hnone) hq
      · exact ih p h hnone

theorem firstEmptyDoc_spec (fs : FileSys) : ∀ (paths : List String) (p : String),
    firstEmptyDoc fs paths = some p → p ∈ paths ∧ lookupFS fs p = some [] := by
  intro paths
  induction paths with
  | nil => intro p h; simp [firstEmptyDoc] at h
  | cons q rest ih =>
    intro p h
    unfold firstEmptyDoc at h
    by_cases hq : lookupFS fs q = some []
    · rw [if_pos hq] at h
      cases h
      exact ⟨List.mem_cons_self q rest, hq⟩
    · rw [if_neg hq] at h
      obtain ⟨hmem, hsome⟩ := ih p h
      exact ⟨List.mem_cons_of_mem q hmem, hsome⟩

theorem firstEmptyDoc_isSome (fs : FileSys) : ∀ (paths : List String) (p : String),
    p ∈ paths → lookupFS fs p = some [] → (firstEmptyDoc fs paths).isSome = true := by
  intro paths
  induction paths with
  | nil => intro p h; simp at h
  | cons q rest ih =>
    intro p hmem hempty
    unfold firstEmptyDoc
    by_cases hq : lookupFS fs q = some []
    · rw [if_pos hq]; rfl
    · rw [if_neg hq]
      rcases List.mem_cons.mp hmem with h | h
      · exact absurd (h ▸ hempty) hq
      · exact ih p h hempty

theorem lcLoadLoop_missing (fs : FileSys) : ∀ (paths : List String)
    (acc : List ResultRec) (p : String),
    firstMissing fs paths = some p → lcLoadLoop fs paths acc = .error p := by
  intro paths
  induction paths with
  | nil => intro acc p h; simp [firstMissing] at h
  | cons q rest ih =>
    intro acc p h
    unfold firstMissing at h
    by_cases hq : lookupFS fs q = none
    · rw [if_pos hq] at h
      cases h
      simp [lcLoadLoop, hq]
    · rw [if_neg hq] at h
      cases hobj : lookupFS fs q with
      | none => exact absurd hobj hq
      | some obj =>
        simp only [lcLoadLoop, hobj]
        exact ih _ p h

theorem summaryLoadLoop_missing (fs : FileSys) (abl : ℤ) : ∀ (paths : List String)
    (acc : List ResultRec) (af : AllF) (p : String),
    (∀ q ∈ paths, cleanWhenPresent fs abl q = true) →
    firstMissing fs paths = some p →
    summaryLoadLoop fs abl paths acc af = .error (.missingFile p) := by
  intro paths
  induction paths with
  | nil => intro acc af p _ h; simp [firstMissing] at h
  | cons q rest ih =>
    intro acc af p hclean h
    unfold firstMissing at h
    by_cases hq : lookupFS fs q = none
    · rw [if_pos hq] at h
      cases h
      simp [summaryLoadLoop, hq]
    · rw [if_neg hq] at h
      have hcq : cleanWhenPresent fs abl q = true := hclean q (List.mem_cons_self q rest)
      have hrest : ∀ q' ∈ rest, cleanWhenPresent fs abl q' = true :=
        fun q' h' => hclean q' (List.mem_cons_of_mem q h')
      cases hobj : lookupFS fs q with
      | none => exact absurd hobj hq
      | some obj =>
        have hfl : fileLoads abl obj = true := by
          unfold cleanWhenPresent at hcq
          rw [hobj] at hcq
          simpa using hcq
        cases obj with
        | nil => simp [fileLoads] at hfl
        | cons r0 tl =>
          simp only [fileLoads] at hfl
          cases hname : getField r0 "featureset_name" with
          | none => simp [hname] at hfl
          | some fsname =>
            simp only [hname] at hfl
            by_cases habl : abl = 0
            · simp only [summaryLoadLoop, hobj, hname, if_pos habl]
              exact ih _ _ p hrest h
            · rw [if_neg habl] at hfl
              cases fsname with
              | s name =>
                by_cases hmark : containsMarker name
                · simp only [hmark, if_true] at hfl
                  cases hfeats : (getField r0 "featureset").bind yamlLoadStrs with
                  | none => simp [hfeats] at hfl
                  | some feats =>
                    simp only [summaryLoadLoop, hobj, hname, if_neg habl, hmark,
                      if_true, hfeats]
                    exact ih _ _ p hrest h
                · simp only [summaryLoadLoop, hobj, hname, if_neg habl,
                    hmark, if_false]
                  exact ih _ _ p hrest h
              | n v => simp at hfl
              | strs v => simp at hfl
              | nums v => simp at hfl

theorem summaryLoadLoop_emptyDoc (fs : FileSys) (abl : ℤ) : ∀ (paths : List String)
    (acc : List ResultRec) (af : AllF) (p : String),
    (∀ q ∈ paths, presentAndLoadsOrEmpty fs abl q = true) →
    firstEmptyDoc fs paths = some p →
    summaryLoadLoop fs abl paths acc af = .error (.loadIndexError p) := by
  intro paths
  induction paths with
  | nil => intro acc af p _ h; simp [firstEmptyDoc] at h
  | cons q rest ih =>
    intro acc af p hclean h
    unfold firstEmptyDoc at h
    have hcq : presentAndLoadsOrEmpty fs abl q = true := hclean q (List.mem_cons_self q rest)
    have hrest : ∀ q' ∈ rest, presentAndLoadsOrEmpty fs abl q' = true :=
      fun q' h' => hclean q' (List.mem_cons_of_mem q h')
    by_cases hq : lookupFS fs q = some []
    · rw [if_pos hq] at h
      cases h
      simp [summaryLoadLoop, hq]
    · rw [if_neg hq] at h
      cases hobj : lookupFS fs q with
      | none =>
        unfold presentAndLoadsOrEmpty at hcq
        rw [hobj] at hcq
        simp at hcq
      | some obj =>
        cases obj with
        | nil => exact absurd hobj hq
        | cons r0 tl =>
          have hfl : fileLoads abl (r0 :: tl) = true := by
            unfold presentAndLoadsOrEmpty at hcq
            rw [hobj] at hcq
            simpa using hcq
          simp only [fileLoads] at hfl
          cases hname : getField r0 "featureset_name" with
          | none => simp [hname] at hfl
          | some fsname =>
            simp only [hname] at hfl
            by_cases habl : abl = 0
            · simp only [summaryLoadLoop, hobj, hname, if_pos habl]
              exact ih _ _ p hrest h
            · rw [if_neg habl] at hfl
              cases fsname with
              | s name =>
                by_cases hmark : containsMarker name
                · simp only [hmark, if_true] at hfl
                  cases hfeats : (getField r0 "featureset").bind yamlLoadStrs with
                  | none => simp [hfeats] at hfl
                  | some feats =>
                    simp only [summaryLoadLoop, hobj, hname, if_neg habl, hmark,
                      if_true, hfeats]
                    exact ih _ _ p hrest h
                · simp only [summaryLoadLoop, hobj, hname, if_neg habl,
                    hmark, if_false]
                  exact ih _ _ p hrest h
              | n v => simp at hfl
              | strs v => simp at hfl
              | nums v => simp at hfl

theorem summaryLoadLoop_af_mono (fs : FileSys) (abl : ℤ) : ∀ (paths : List String)
    (acc : List ResultRec) (af : AllF) (lrds : List ResultRec) (afF : AllF),
    summaryLoadLoop fs abl paths acc af = .ok (lrds, afF) →
    ∀ (P x : String), x ∈ getAllF af P → x ∈ getAllF afF P := by
  intro paths
  induction paths with
  | nil =>
    intro acc af lrds afF h P x hx
    simp only [summaryLoadLoop, Except.ok.injEq, Prod.mk.injEq] at h
    exact h.2 ▸ hx
  | cons q rest ih =>
    intro acc af lrds afF h P x hx
    cases hobj : lookupFS fs q with
    | none => simp [summaryLoadLoop, hobj] at h
    | some obj =>
      cases obj with
      | nil => simp [summaryLoadLoop, hobj] at h
      | cons r0 tl =>
        cases hname : getField r0 "featureset_name" with
        | none => simp [summaryLoadLoop, hobj, hname] at h
        | some fsname =>
          by_cases habl : abl = 0
          · simp only [summaryLoadLoop, hobj, hname, if_pos habl] at h
            exact ih _ _ _ _ h P x hx
          · cases fsname with
            | s name =>
              simp only [summaryLoadLoop, hobj, hname, if_neg habl] at h
              by_cases hmark : containsMarker name
              · simp only [hmark, if_true] at h
                cases hfeats : (getField r0 "featureset").bind yamlLoadStrs with
                | none => rw [hfeats] at h; simp at h
                | some feats =>
                  rw [hfeats] at h
                  exact ih _ _ _ _ h P x
                    (getAllF_updAllF_mono af P (parentOf name) feats x hx)
              · simp only [hmark, if_false] at h
                exact ih _ _ _ _ h P x hx
            | n v => simp [summaryLoadLoop, hobj, hname, if_neg habl] at h
            | strs v => simp [summaryLoadLoop, hobj, hname, if_neg habl] at h
            | nums v => simp [summaryLoadLoop, hobj, hname, if_neg habl] at h

theorem summaryLoadLoop_collects (fs : FileSys) (abl : ℤ) (habl : ¬abl = 0) :
    ∀ (paths : List String) (acc : List ResultRec) (af : AllF)
    (lrds : List ResultRec) (afF : AllF),
    summaryLoadLoop fs abl paths acc af = .ok (lrds, afF) →
    ∀ p ∈ paths, ∀ (r0 : ResultRec) (tl : List ResultRec) (name : String)
      (feats : List String),
      lookupFS fs p = some (r0 :: tl) →
      getField r0 "featureset_name" = some (.s name) →
      containsMarker name = true →
      (getField r0 "featureset").bind yamlLoadStrs = some feats →
      ∀ x ∈ feats, x ∈ getAllF afF (parentOf name) := by
  intro paths
  induction paths with
  | nil => intro acc af lrds afF _ p hp; simp at hp
  | cons q rest ih =>
    intro acc af lrds afF h p hp r0 tl name feats hobj hname hmark hfeats x hx
    rcases List.mem_cons.mp hp with hpq | hpr
    · subst hpq
      simp only [summaryLoadLoop, hobj, hname, if_neg habl, hmark, if_true,
        hfeats] at h
      exact summaryLoadLoop_af_mono fs abl rest _ _ _ _ h (parentOf name) x
        (mem_getAllF_updAllF_self af (parentOf name) feats x hx)
    · cases hobj' : lookupFS fs q with
      | none => simp [summaryLoadLoop, hobj'] at h
      | some obj =>
        cases obj with
        | nil => simp [summaryLoadLoop, hobj'] at h
        | cons s0 sl =>
          cases hname' : getField s0 "featureset_name" with
          | none => simp [summaryLoadLoop, hobj', hname'] at h
          | some fsname' =>
            cases fsname' with
            | s name' =>
              simp only [summaryLoadLoop, hobj', hname', if_neg habl] at h
              by_cases hmark' : containsMarker name'
              · simp only [hmark', if_true] at h
                cases hfeats' : (getField s0 "featureset").bind yamlLoadStrs with
                | none => rw [hfeats'] at h; simp at h
                | some feats' =>
                  rw [hfeats'] at h
                  exact ih _ _ _ _ h p hpr r0 tl name feats hobj hname hmark
                    hfeats x hx
              · simp only [hmark', if_false] at h
                exact ih _ _ _ _ h p hpr r0 tl name feats hobj hname hmark
                  hfeats x hx
            | n v => simp [summaryLoadLoop, hobj', hname', if_neg habl] at h
            | strs v => simp [summaryLoadLoop, hobj', hname', if_neg habl] at h
            | nums v => simp [summaryLoadLoop, hobj', hname', if_neg habl] at h

theorem summaryRowsLoop_finished_get (af : AllF) (abl : ℤ) :
    ∀ (lrds rows : List ResultRec),
    summaryRowsLoop af abl lrds = (rows, .finished) →
    ∀ i : ℕ, rows[i]? = (lrds[i]?).bind (augmentRecord af abl) := by
  intro lrds
  induction lrds with
  | nil =>
    intro rows h i
    simp only [summaryRowsLoop, Prod.mk.injEq] at h
    rw [← h.1]
    simp
  | cons r rest ih =>
    intro rows h i
    cases haug : augmentRecord af abl r with
    | none => simp [summaryRowsLoop, haug] at h
    | some r' =>
      simp only [summaryRowsLoop, haug, Prod.mk.injEq] at h
      obtain ⟨hrows, hst⟩ := h
      rw [← hrows]
      cases i with
      | zero => simp [haug]
      | succ j =>
        simp only [List.getElem?_cons_succ]
        exact ih _ (Prod.ext rfl hst) j

theorem zip7_length : ∀ as bs cs ds es fl gs : List ℚ,
    (zip7 as bs cs ds es fl gs).length =
      min as.length (min bs.length (min cs.length (min ds.length
        (min es.length (min fl.length gs.length))))) := by
  intro as
  induction as with
  | nil => intro bs cs ds es fl gs; simp [zip7]
  | cons a as ih =>
    intro bs cs ds es fl gs
    cases bs with
    | nil => simp [zip7]
    | cons b bs =>
      cases cs with
      | nil => simp [zip7]
      | cons c cs =>
        cases ds with
        | nil => simp [zip7]
        | cons d ds =>
          cases es with
          | nil => simp [zip7]
          | cons e es =>
            cases fl with
            | nil => simp [zip7]
            | cons f fl =>
              cases gs with
              | nil => simp [zip7]
              | cons g gs =>
                simp only [zip7, List.length_cons, ih, Nat.succ_min_succ]

theorem zip7_getElem? : ∀ (as bs cs ds es fl gs : List ℚ) (i : ℕ)
    (a b c d e f g : ℚ),
    as[i]? = some a → bs[i]? = some b → cs[i]? = some c → ds[i]? = some d →
    es[i]? = some e → fl[i]? = some f → gs[i]? = some g →
    (zip7 as bs cs ds es fl gs)[i]? = some (a, b, c, d, e, f, g) := by
  intro as
  induction as with
  | nil => intro bs cs ds es fl gs i a b c d e f g ha; simp at ha
  | cons a0 as ih =>
    intro bs cs ds es fl gs i a b c d e f g ha hb hc hd he hf hg
    cases bs with
    | nil => simp at hb
    | cons b0 bs =>
      cases cs with
      | nil => simp at hc
      | cons c0 cs =>
        cases ds with
        | nil => simp at hd
        | cons d0 ds =>
          cases es with
          | nil => simp at he
          | cons e0 es =>
            cases fl with
            | nil => simp at hf
            | cons f0 fl =>
              cases gs with
              | nil => simp at hg
              | cons g0 gs =>
                cases i with
                | zero =>
                  simp only [List.getElem?_cons_zero, Option.some.injEq]
                    at ha hb hc hd he hf hg
                  subst ha hb hc hd he hf hg
                  simp [zip7]
                | succ j =>
                  simp only [List.getElem?_cons_succ] at ha hb hc hd he hf hg
                  simp only [zip7, List.getElem?_cons_succ]
                  exact ih bs cs ds es fl gs j a b c d e f g ha hb hc hd he hf hg

theorem lcSet_metric (r : ResultRec) (t : ℚ × ℚ × ℚ × ℚ × ℚ × ℚ × ℚ) :
    getField (lcSetSizeFields r t) "metric" = getField r "metric" := by
  unfold lcSetSizeFields
  rw [getField_setField_other _ _ _ _ (by decide),
      getField_setField_other _ _ _ _ (by decide),
      getField_setField_other _ _ _ _ (by decide),
      getField_setField_other _ _ _ _ (by decide),
      getField_setField_other _ _ _ _ (by decide),
      getField_setField_other _ _ _ _ (by decide),
      getField_setField_other _ _ _ _ (by decide)]

theorem lcSet_size (r : ResultRec) (t : ℚ × ℚ × ℚ × ℚ × ℚ × ℚ × ℚ) :
    getField (lcSetSizeFields r t) "training_set_size" = some (.n t.1) := by
  unfold lcSetSizeFields
  rw [getField_setField_other _ _ _ _ (by decide),
      getField_setField_other _ _ _ _ (by decide),
      getField_setField_other _ _ _ _ (by decide),
      getField_setField_other _ _ _ _ (by decide),
      getField_setField_other _ _ _ _ (by decide),
      getField_setField_other _ _ _ _ (by decide),
      getField_setField_self]

theorem lcSet_train_mean (r : ResultRec) (t : ℚ × ℚ × ℚ × ℚ × ℚ × ℚ × ℚ) :
    getField (lcSetSizeFields r t) "train_score_mean" = some (.n t.2.1) := by
  unfold lcSetSizeFields
  rw [getField_setField_other _ _ _ _ (by decide),
      getField_setField_other _ _ _ _ (by decide),
      getField_setField_other _ _ _ _ (by decide),
      getField_setField_other _ _ _ _ (by decide),
      getField_setField_other _ _ _ _ (by decide),
      getField_setField_self]

theorem lcSet_test_mean (r : ResultRec) (t : ℚ × ℚ × ℚ × ℚ × ℚ × ℚ × ℚ) :
    getField (lcSetSizeFields r t) "test_score_mean" = some (.n t.2.2.1) := by
  unfold lcSetSizeFields
  rw [getField_setField_other _ _ _ _ (by decide),
      getField_setField_other _ _ _ _ (by decide),
      getField_setField_other _ _ _ _ (by decide),
      getField_setField_other _ _ _ _ (by decide),
      getField_setField_self]

theorem lcSet_fit_mean (r : ResultRec) (t : ℚ × ℚ × ℚ × ℚ × ℚ × ℚ × ℚ) :
    getField (lcSetSizeFields r t) "fit_time_mean" = some (.n t.2.2.2.1) := by
  unfold lcSetSizeFields
  rw [getField_setField_other _ _ _ _ (by decide),
      getField_setField_other _ _ _ _ (by decide),
      getField_setField_other _ _ _ _ (by decide),
      getField_setField_self]

theorem lcSet_train_std (r : ResultRec) (t : ℚ × ℚ × ℚ × ℚ × ℚ × ℚ × ℚ) :
    getField (lcSetSizeFields r t) "train_score_std" = some (.n t.2.2.2.2.1) := by
  unfold lcSetSizeFields
  rw [getField_setField_other _ _ _ _ (by decide),
      getField_setField_other _ _ _ _ (by decide),
      getField_setField_self]

theorem lcSet_test_std (r : ResultRec) (t : ℚ × ℚ × ℚ × ℚ × ℚ × ℚ × ℚ) :
    getField (lcSetSizeFields r t) "test_score_std" = some (.n t.2.2.2.2.2.1) := by
  unfold lcSetSizeFields
  rw [getField_setField_other _ _ _ _ (by decide),
      getField_setField_self]

theorem lcSet_fit_std (r : ResultRec) (t : ℚ × ℚ × ℚ × ℚ × ℚ × ℚ × ℚ) :
    getField (lcSetSizeFields r t) "fit_time_std" = some (.n t.2.2.2.2.2.2) := by
  unfold lcSetSizeFields
  rw [getField_setField_self]

/-! Claim theorems. -/

/-- C1: for every ordered sequence of input paths (of well-formed result
files) containing at least one path that does not name an existing file,
both `_write_summary_file` and `_write_learning_curve_file` write zero bytes
to the output file — no header, no rows, no partial output even when earlier
paths were loaded successfully — and report which path was missing. -/
theorem summary_and_curve_abort_on_missing_path (fs : FileSys)
    (paths : List String) (abl : ℤ)
    (hclean : ∀ q ∈ paths, cleanWhenPresent fs abl q = true)
    (hmiss : ∃ p ∈ paths, lookupFS fs p = none) :
    ∃ p ∈ paths, lookupFS fs p = none ∧
      write_summary_file fs paths abl = ⟨none, [], .missingFile p⟩ ∧
      write_learning_curve_file fs paths = ⟨none, [], .missingFile p⟩ := by
  obtain ⟨p0, hp0, hn0⟩ := hmiss
  have hsome := firstMissing_isSome fs paths p0 hp0 hn0
  cases hfm : firstMissing fs paths with
  | none => rw [hfm] at hsome; simp at hsome
  | some p =>
    obtain ⟨hmem, hnone⟩ := firstMissing_spec fs paths p hfm
    refine ⟨p, hmem, hnone, ?_, ?_⟩
    · unfold write_summary_file
      rw [summaryLoadLoop_missing fs abl paths [] [] p hclean hfm]
    · unfold write_learning_curve_file
      rw [lcLoadLoop_missing fs paths [] p hfm]

/-- Witness for C1 at a concrete filesystem and path list. -/
theorem summary_and_curve_abort_on_missing_path_check :
    ∃ p ∈ ["a.json", "gone.json"], lookupFS wFS p = none ∧
      write_summary_file wFS ["a.json", "gone.json"] 0 =
        ⟨none, [], .missingFile p⟩ ∧
      write_learning_curve_file wFS ["a.json", "gone.json"] =
        ⟨none, [], .missingFile p⟩ :=
  summary_and_curve_abort_on_missing_path wFS ["a.json", "gone.json"] 0
    (by decide) (by decide)

/-- C10: `_write_summary_file` requires at least one loaded record and one
record per input file: on an empty path list, or when some input file's JSON
document is an empty array (all files present and otherwise well formed),
the access to the first record fails before any output is written — header
`none`, no rows — rather than producing an empty or partial summary table. -/
theorem summary_requires_first_record (fs : FileSys) (paths : List String)
    (abl : ℤ)
    (hclean : ∀ q ∈ paths, presentAndLoadsOrEmpty fs abl q = true)
    (hempty : ∃ p ∈ paths, lookupFS fs p = some []) :
    write_summary_file fs [] abl = ⟨none, [], .headerIndexError⟩ ∧
    ∃ p ∈ paths, lookupFS fs p = some [] ∧
      write_summary_file fs paths abl = ⟨none, [], .loadIndexError p⟩ := by
  constructor
  · rfl
  · obtain ⟨p0, hp0, he0⟩ := hempty
    have hsome := firstEmptyDoc_isSome fs paths p0 hp0 he0
    cases hfe : firstEmptyDoc fs paths with
    | none => rw [hfe] at hsome; simp at hsome
    | some p =>
      obtain ⟨hmem, hkey⟩ := firstEmptyDoc_spec fs paths p hfe
      refine ⟨p, hmem, hkey, ?_⟩
      unfold write_summary_file
      rw [summaryLoadLoop_emptyDoc fs abl paths [] [] p hclean hfe]

/-- Witness for C10 at a concrete filesystem holding one empty document. -/
theorem summary_requires_first_record_check :
    write_summary_file wFSE [] 0 = ⟨none, [], .headerIndexError⟩ ∧
    ∃ p ∈ ["e.json"], lookupFS wFSE p = some [] ∧
      write_summary_file wFSE ["e.json"] 0 = ⟨none, [], .loadIndexError p⟩ :=
  summary_requires_first_record wFSE ["e.json"] 0 (by decide) (by decide)

/-- C3 counterexample: with ablation enabled, pass 1 does not union the
feature list of every marker-bearing loaded record: in a single input file
holding the two ablation children `A_minus_f1` (features `[f2]`) and
`A_minus_f2` (features `[f1]`), both records are loaded, yet the accumulated
`all_features["A"]` ends as `{f2}` only — the second record's feature `f1`
is missing, because pass 1 reads only `obj[0]` of each file. -/
theorem ablation_union_skips_later_records :
    summaryLoadLoop cFS3 1 ["p.json"] [] [] =
      .ok ([cRec3a, cRec3b], [("A", ["f2"])]) ∧
    summaryAllFeatures cFS3 ["p.json"] 1 = some [("A", ["f2"])] ∧
    getField cRec3b "featureset_name" = some (.s "A_minus_f2") ∧
    containsMarker "A_minus_f2" = true ∧
    parentOf "A_minus_f2" = "A" ∧
    getField cRec3b "featureset" = some (.strs ["f1"]) ∧
    "f1" ∉ getAllF [("A", ["f2"])] "A" := by decide

/-- C3 amended: pass 1 unions the decoded feature list of the first record
of each input file (not of every loaded record): whenever loading completes,
for every input path whose first record bears the ablation marker, that first
record's decoded features are all contained in `all_features[parent]`. -/
theorem ablation_union_first_record_only (fs : FileSys) (abl : ℤ)
    (habl : ¬abl = 0) (paths : List String) (lrds : List ResultRec) (af : AllF)
    (hload : summaryLoadLoop fs abl paths [] [] = .ok (lrds, af))
    (p : String) (hp : p ∈ paths) (r0 : ResultRec) (tl : List ResultRec)
    (name : String) (feats : List String)
    (hobj : lookupFS fs p = some (r0 :: tl))
    (hname : getField r0 "featureset_name" = some (.s name))
    (hmark : containsMarker name = true)
    (hfeats : (getField r0 "featureset").bind yamlLoadStrs = some feats) :
    ∀ x ∈ feats, x ∈ getAllF af (parentOf name) :=
  summaryLoadLoop_collects fs abl habl paths [] [] lrds af hload p hp r0 tl
    name feats hobj hname hmark hfeats

/-- Witness for the amended C3 on a two-file ablation run: the feature `f1`
of the second file's first record reaches `all_features["A"]`. -/
theorem ablation_union_first_record_only_check :
    "f1" ∈ getAllF [("A", ["f2", "f1"])] (parentOf "A_minus_f2") :=
  ablation_union_first_record_only wFS2 1 (by decide) ["pa.json", "pb.json"]
    [cRec3a, cRec3b] [("A", ["f2", "f1"])] (by decide) "pb.json" (by decide)
    cRec3b [] "A_minus_f2" ["f1"] (by decide) (by decide) (by decide) (by decide)
    "f1" (by decide)

/-- C4 counterexample: the summary header is not the sorted set of field
names across all loaded records: with a first record lacking the key
`pearson` that the second record has, the emitted header omits `pearson`,
while the claimed header (over all records) contains it. -/
theorem summary_header_ignores_later_records :
    (write_summary_file cFS4 ["p.json"] 0).header =
      some ["accuracy", "featureset_name"] ∧
    summaryLoadLoop cFS4 0 ["p.json"] [] [] = .ok ([cRec1, cRec2], []) ∧
    "pearson" ∈ recKeys cRec2 ∧
    claimedSummaryHeader 0 [cRec1, cRec2] =
      ["accuracy", "featureset_name", "pearson"] ∧
    (write_summary_file cFS4 ["p.json"] 0).header ≠
      some (claimedSummaryHeader 0 [cRec1, cRec2]) := by decide

/-- C4 amended: the summary output header equals the sorted set of the FIRST
loaded record's field names, minus `result_table` and `descriptive`, plus
`ablated_features` exactly when ablation is enabled. -/
theorem summary_header_from_first_record (fs : FileSys) (paths : List String)
    (abl : ℤ) (lrds : List ResultRec) (af : AllF) (r0 : ResultRec)
    (rest : List ResultRec)
    (hload : summaryLoadLoop fs abl paths [] [] = .ok (lrds, af))
    (hlrds : lrds = r0 :: rest) :
    ∃ hdr, (write_summary_file fs paths abl).header = some hdr ∧
      StrSorted hdr ∧
      ∀ c, c ∈ hdr ↔
        ((c ∈ recKeys r0 ∧ c ≠ "result_table" ∧ c ≠ "descriptive") ∨
          (¬abl = 0 ∧ c = "ablated_features")) := by
  subst hlrds
  unfold write_summary_file
  rw [hload]
  simp only [summaryHeader]
  refine ⟨_, rfl, strSorted_sortStrs _, ?_⟩
  intro c
  rw [mem_sortStrs]
  by_cases habl : abl = 0
  · rw [if_pos habl]
    rw [List.mem_filter, mem_dedupStrs]
    simp [habl]
  · rw [if_neg habl]
    rw [mem_insertNew, List.mem_filter, mem_dedupStrs]
    simp only [Bool.not_eq_true', Bool.or_eq_false_iff, beq_eq_false_iff_ne,
      ne_eq]
    tauto

/-- Witness for the amended C4 at a concrete one-record run. -/
theorem summary_header_from_first_record_check :
    ∃ hdr, (write_summary_file wFS ["a.json"] 0).header = some hdr ∧
      StrSorted hdr ∧
      ∀ c, c ∈ hdr ↔
        ((c ∈ recKeys wRec ∧ c ≠ "result_table" ∧ c ≠ "descriptive") ∨
          (¬(0 : ℤ) = 0 ∧ c = "ablated_features")) :=
  summary_header_from_first_record wFS ["a.json"] 0 [wRec] [] wRec []
    (by decide) rfl

/-- C2: in an ablation-enabled summary run that completes, every emitted row
whose featureset name contains the `_minus_` marker carries, in its
`ablated_features` field, the JSON serialization of the sorted set
difference between `all_features[parent]` (the union accumulated in pass 1
for that parent) and the row's own decoded feature list — the empty string
when that difference is empty. -/
theorem ablated_features_field_spec (fs : FileSys) (paths : List String)
    (abl : ℤ) (habl : ¬abl = 0) (lrds : List ResultRec) (af : AllF)
    (hload : summaryLoadLoop fs abl paths [] [] = .ok (lrds, af))
    (rows : List ResultRec)
    (hrows : summaryRowsLoop af abl lrds = (rows, .finished))
    (i : ℕ) (r : ResultRec) (name : String) (own : List String)
    (hi : lrds[i]? = some r)
    (hname : getField r "featureset_name" = some (.s name))
    (hmark : containsMarker name = true)
    (hown : (getField r "featureset").bind yamlLoadStrs = some own) :
    ∃ r', (write_summary_file fs paths abl).rows[i]? = some r' ∧
      getField r' "ablated_features" = some (.s
        (if setDiff (getAllF af (parentOf name)) own = [] then ""
         else jsonDumpStrList (sortStrs (setDiff (getAllF af (parentOf name)) own)))) := by
  have hget := summaryRowsLoop_finished_get af abl lrds rows hrows i
  rw [hi] at hget
  simp only [Option.some_bind] at hget
  have haug : augmentRecord af abl r = some (setField r "ablated_features"
      (.s (if setDiff (getAllF af (parentOf name)) own = [] then ""
           else jsonDumpStrList (sortStrs (setDiff (getAllF af (parentOf name)) own))))) := by
    unfold augmentRecord
    rw [hname]
    simp only [if_neg habl]
    rw [hown]
  rw [haug] at hget
  cases lrds with
  | nil => simp at hi
  | cons r0 rest' =>
    unfold write_summary_file
    rw [hload]
    simp only [summaryHeader]
    refine ⟨_, ?_, getField_setField_self r "ablated_features" _⟩
    rw [hrows]
    exact hget

/-- Witness for C2 on a two-file ablation run whose second row has a
non-empty ablated-feature difference. -/
theorem ablated_features_field_spec_check :
    ∃ r', (write_summary_file wFS2 ["pa.json", "pb.json"] 1).rows[1]? = some r' ∧
      getField r' "ablated_features" = some (.s
        (if setDiff (getAllF [("A", ["f2", "f1"])] (parentOf "A_minus_f2")) ["f1"] = []
         then ""
         else jsonDumpStrList (sortStrs
           (setDiff (getAllF [("A", ["f2", "f1"])] (parentOf "A_minus_f2")) ["f1"])))) :=
  ablated_features_field_spec wFS2 ["pa.json", "pb.json"] 1 (by decide)
    [cRec3a, cRec3b] [("A", ["f2", "f1"])] (by decide)
    [[("featureset_name", .s "A_minus_f1"), ("featureset", .strs ["f2"]),
      ("ablated_features", .s "[\"f1\"]")],
     [("featureset_name", .s "A_minus_f2"), ("featureset", .strs ["f1"]),
      ("ablated_features", .s "[\"f2\"]")]]
    (by decide) 1 cRec3b "A_minus_f2" ["f1"] (by decide) (by decide) (by decide)
    (by decide)

/-- C5: for every learning-curve record whose seven parallel sequences have
equal length `n` (and whose `grid_objective` is present),
`_write_learning_curve_file` emits exactly `n` wide rows for that record,
row `i` carrying the `i`-th element of each sequence copied positionally,
with the `metric` field equal to the record's `grid_objective` value. -/
theorem learning_curve_rows_positional (r : ResultRec) (n : ℕ)
    (sz trm tem ftm trs tes fts : List ℚ) (gobj : JVal)
    (hsz : getNums r "computed_curve_train_sizes" = some sz)
    (htrm : getNums r "learning_curve_train_scores_means" = some trm)
    (htem : getNums r "learning_curve_test_scores_means" = some tem)
    (hftm : getNums r "learning_curve_fit_times_means" = some ftm)
    (htrs : getNums r "learning_curve_train_scores_stds" = some trs)
    (htes : getNums r "learning_curve_test_scores_stds" = some tes)
    (hfts : getNums r "learning_curve_fit_times_stds" = some fts)
    (hgobj : getField r "grid_objective" = some gobj)
    (hlsz : sz.length = n) (hltrm : trm.length = n) (hltem : tem.length = n)
    (hlftm : ftm.length = n) (hltrs : trs.length = n) (hltes : tes.length = n)
    (hlfts : fts.length = n) :
    ∃ rows, rowsForRecord r = some rows ∧ rows.length = n ∧
      ∀ i : ℕ, i < n → ∃ ri, rows[i]? = some ri ∧
        getField ri "metric" = some gobj ∧
        getField ri "training_set_size" = (sz[i]?).map JVal.n ∧
        getField ri "train_score_mean" = (trm[i]?).map JVal.n ∧
        getField ri "test_score_mean" = (tem[i]?).map JVal.n ∧
        getField ri "fit_time_mean" = (ftm[i]?).map JVal.n ∧
        getField ri "train_score_std" = (trs[i]?).map JVal.n ∧
        getField ri "test_score_std" = (tes[i]?).map JVal.n ∧
        getField ri "fit_time_std" = (fts[i]?).map JVal.n := by
  have hrows : rowsForRecord r =
      some ((zip7 sz trm tem ftm trs tes fts).map
        (lcSetSizeFields (setField r "metric" gobj))) := by
    unfold rowsForRecord
    rw [hsz, htrm, htem, hftm, htrs, htes, hfts, hgobj]
  refine ⟨_, hrows, ?_, ?_⟩
  · rw [List.length_map, zip7_length, hlsz, hltrm, hltem, hlftm, hltrs,
      hltes, hlfts]
    simp
  · intro i hi
    have h1 : i < sz.length := by rw [hlsz]; exact hi
    have h2 : i < trm.length := by rw [hltrm]; exact hi
    have h3 : i < tem.length := by rw [hltem]; exact hi
    have h4 : i < ftm.length := by rw [hlftm]; exact hi
    have h5 : i < trs.length := by rw [hltrs]; exact hi
    have h6 : i < tes.length := by rw [hltes]; exact hi
    have h7 : i < fts.length := by rw [hlfts]; exact hi
    have hz7 := zip7_getElem? sz trm tem ftm trs tes fts i _ _ _ _ _ _ _
      (List.getElem?_eq_getElem h1) (List.getElem?_eq_getElem h2)
      (List.getElem?_eq_getElem h3) (List.getElem?_eq_getElem h4)
      (List.getElem?_eq_getElem h5) (List.getElem?_eq_getElem h6)
      (List.getElem?_eq_getElem h7)
    refine ⟨lcSetSizeFields (setField r "metric" gobj)
      (sz[i], trm[i], tem[i], ftm[i], trs[i], tes[i], fts[i]),
      ?_, ?_, ?_, ?_, ?_, ?_, ?_, ?_, ?_⟩
    · rw [List.getElem?_map, hz7]
      rfl
    · rw [lcSet_metric, getField_setField_self]
    · rw [lcSet_size, List.getElem?_eq_getElem h1]
      rfl
    · rw [lcSet_train_mean, List.getElem?_eq_getElem h2]
      rfl
    · rw [lcSet_test_mean, List.getElem?_eq_getElem h3]
      rfl
    · rw [lcSet_fit_mean, List.getElem?_eq_getElem h4]
      rfl
    · rw [lcSet_train_std, List.getElem?_eq_getElem h5]
      rfl
    · rw [lcSet_test_std, List.getElem?_eq_getElem h6]
      rfl
    · rw [lcSet_fit_std, List.getElem?_eq_getElem h7]
      rfl

/-- Witness for C5 on a record with arrays of length 2. -/
theorem learning_curve_rows_positional_check :
    ∃ rows, rowsForRecord wLCRec = some rows ∧ rows.length = 2 ∧
      ∀ i : ℕ, i < 2 → ∃ ri, rows[i]? = some ri ∧
        getField ri "metric" = some (.s "accuracy") ∧
        getField ri "training_set_size" = (([10, 20] : List ℚ)[i]?).map JVal.n ∧
        getField ri "train_score_mean" = (([5, 6] : List ℚ)[i]?).map JVal.n ∧
        getField ri "test_score_mean" = (([4, 5] : List ℚ)[i]?).map JVal.n ∧
        getField ri "fit_time_mean" = (([1, 2] : List ℚ)[i]?).map JVal.n ∧
        getField ri "train_score_std" = (([1, 1] : List ℚ)[i]?).map JVal.n ∧
        getField ri "test_score_std" = (([1, 1] : List ℚ)[i]?).map JVal.n ∧
        getField ri "fit_time_std" = (([2, 2] : List ℚ)[i]?).map JVal.n :=
  learning_curve_rows_positional wLCRec 2 [10, 20] [5, 6] [4, 5]
    [1, 2] [1, 1] [1, 1] [2, 2] (.s "accuracy")
    (by decide) (by decide) (by decide) (by decide) (by decide) (by decide)
    (by decide) (by decide) (by decide) (by decide) (by decide) (by decide)
    (by decide) (by decide) (by decide)

/-- C6 counterexample: a ragged record (sizes of length 2, train-means of
length 1) does not make `_write_learning_curve_file` raise: the run finishes
normally and silently emits a single truncated row. -/
theorem ragged_arrays_truncate_silently :
    getNums cLCRagged "computed_curve_train_sizes" = some [10, 20] ∧
    getNums cLCRagged "learning_curve_train_scores_means" = some [5] ∧
    (write_learning_curve_file cFS6 ["p.json"]).status = .finished ∧
    (write_learning_curve_file cFS6 ["p.json"]).rows.length = 1 := by decide

/-- C6 amended: for a record with mismatched parallel array lengths, the
flattening silently truncates to the shortest sequence (Python `zip`
semantics) and raises no error: it emits exactly `min` of the seven lengths
many rows. -/
theorem learning_curve_rows_truncate_to_min (r : ResultRec)
    (sz trm tem ftm trs tes fts : List ℚ) (gobj : JVal)
    (hsz : getNums r "computed_curve_train_sizes" = some sz)
    (htrm : getNums r "learning_curve_train_scores_means" = some trm)
    (htem : getNums r "learning_curve_test_scores_means" = some tem)
    (hftm : getNums r "learning_curve_fit_times_means" = some ftm)
    (htrs : getNums r "learning_curve_train_scores_stds" = some trs)
    (htes : getNums r "learning_curve_test_scores_stds" = some tes)
    (hfts : getNums r "learning_curve_fit_times_stds" = some fts)
    (hgobj : getField r "grid_objective" = some gobj) :
    ∃ rows, rowsForRecord r = some rows ∧
      rows.length = min sz.length (min trm.length (min tem.length
        (min ftm.length (min trs.length (min tes.length fts.length))))) := by
  have hrows : rowsForRecord r =
      some ((zip7 sz trm tem ftm trs tes fts).map
        (lcSetSizeFields (setField r "metric" gobj))) := by
    unfold rowsForRecord
    rw [hsz, htrm, htem, hftm, htrs, htes, hfts, hgobj]
  exact ⟨_, hrows, by rw [List.length_map, zip7_length]⟩

/-- Witness for the amended C6 on the ragged record. -/
theorem learning_curve_rows_truncate_to_min_check :
    ∃ rows, rowsForRecord cLCRagged = some rows ∧
      rows.length = min ([10, 20] : List ℚ).length
        (min ([5] : List ℚ).length (min ([4, 5] : List ℚ).length
        (min ([1, 2] : List ℚ).length (min ([1, 1] : List ℚ).length
        (min ([1, 1] : List ℚ).length ([2, 2] : List ℚ).length))))) :=
  learning_curve_rows_truncate_to_min cLCRagged [10, 20] [5] [4, 5]
    [1, 2] [1, 1] [1, 1] [2, 2] (.s "accuracy")
    (by decide) (by decide) (by decide) (by decide) (by decide) (by decide)
    (by decide) (by decide)

/-- C7: for every metric with at least one matching train or test
observation, `_compute_ylimits_for_featureset` returns the range
`(lower, upper)` with `lower = max(min_score - 0.1, floor(min_score) - 0.05)`
if `min_score < 0` else `0`, and `upper = min(max_score + 0.1,
ceil(max_score) + 0.05)` if `max_score > 0` else `0`, where `min_score` is
the minimum over the train/test `value - std` arrays and `max_score` the
maximum over the `value + std` arrays; in particular the lower bound is
never positive. -/
theorem ylimits_formula (df : List MeltedScoreRow) (m : String)
    (hne : trainLowerVals df m ++ testLowerVals df m ≠ []) :
    ∃ mn mx : ℚ,
      (mn ∈ trainLowerVals df m ++ testLowerVals df m ∧
        ∀ x ∈ trainLowerVals df m ++ testLowerVals df m, mn ≤ x) ∧
      (mx ∈ trainUpperVals df m ++ testUpperVals df m ∧
        ∀ x ∈ trainUpperVals df m ++ testUpperVals df m, x ≤ mx) ∧
      ylimitsFor df m =
        some (if mn < 0 then max (mn - 1/10) ((⌊mn⌋ : ℚ) - 1/20) else 0,
              if mx > 0 then min (mx + 1/10) ((⌈mx⌉ : ℚ) + 1/20) else 0) ∧
      compute_ylimits_for_featureset df [m] =
        some [(m, (if mn < 0 then max (mn - 1/10) ((⌊mn⌋ : ℚ) - 1/20) else 0,
                   if mx > 0 then min (mx + 1/10) ((⌈mx⌉ : ℚ) + 1/20) else 0))] ∧
      (if mn < 0 then max (mn - 1/10) ((⌊mn⌋ : ℚ) - 1/20) else 0) ≤ 0 := by
  have hlen : (trainUpperVals df m ++ testUpperVals df m).length =
      (trainLowerVals df m ++ testLowerVals df m).length := by
    simp [trainUpperVals, testUpperVals, trainLowerVals, testLowerVals]
  have hne' : trainUpperVals df m ++ testUpperVals df m ≠ [] := by
    intro hc
    rw [hc] at hlen
    exact hne (List.length_eq_zero.mp hlen.symm)
  cases hmn : listMinQ (trainLowerVals df m ++ testLowerVals df m) with
  | none =>
    have := listMinQ_isSome _ hne
    rw [hmn] at this
    simp at this
  | some mn =>
    cases hmx : listMaxQ (trainUpperVals df m ++ testUpperVals df m) with
    | none =>
      have := listMaxQ_isSome _ hne'
      rw [hmx] at this
      simp at this
    | some mx =>
      obtain ⟨hmem, hle⟩ := listMinQ_spec _ _ hmn
      obtain ⟨hmem', hle'⟩ := listMaxQ_spec _ _ hmx
      have hyl : ylimitsFor df m =
          some (if mn < 0 then max (mn - 1/10) ((⌊mn⌋ : ℚ) - 1/20) else 0,
                if mx > 0 then min (mx + 1/10) ((⌈mx⌉ : ℚ) + 1/20) else 0) := by
        unfold ylimitsFor
        rw [hmn, hmx]
      refine ⟨mn, mx, ⟨hmem, hle⟩, ⟨hmem', hle'⟩, hyl, ?_, ?_⟩
      · unfold compute_ylimits_for_featureset
        simp [List.mapM, List.mapM.loop, hyl]
      · by_cases h0 : mn < 0
        · rw [if_pos h0]
          apply max_le
          · linarith
          · have hf : (⌊mn⌋ : ℚ) ≤ mn := Int.floor_le mn
            linarith
        · rw [if_neg h0]

/-- Witness for C7 on a one-row frame with a negative lower band. -/
theorem ylimits_formula_check :
    ∃ mn mx : ℚ,
      (mn ∈ trainLowerVals [wPlotRow] "accuracy" ++ testLowerVals [wPlotRow] "accuracy" ∧
        ∀ x ∈ trainLowerVals [wPlotRow] "accuracy" ++ testLowerVals [wPlotRow] "accuracy",
          mn ≤ x) ∧
      (mx ∈ trainUpperVals [wPlotRow] "accuracy" ++ testUpperVals [wPlotRow] "accuracy" ∧
        ∀ x ∈ trainUpperVals [wPlotRow] "accuracy" ++ testUpperVals [wPlotRow] "accuracy",
          x ≤ mx) ∧
      ylimitsFor [wPlotRow] "accuracy" =
        some (if mn < 0 then max (mn - 1/10) ((⌊mn⌋ : ℚ) - 1/20) else 0,
              if mx > 0 then min (mx + 1/10) ((⌈mx⌉ : ℚ) + 1/20) else 0) ∧
      compute_ylimits_for_featureset [wPlotRow] ["accuracy"] =
        some [("accuracy",
          (if mn < 0 then max (mn - 1/10) ((⌊mn⌋ : ℚ) - 1/20) else 0,
           if mx > 0 then min (mx + 1/10) ((⌈mx⌉ : ℚ) + 1/20) else 0))] ∧
      (if mn < 0 then max (mn - 1/10) ((⌊mn⌋ : ℚ) - 1/20) else 0) ≤ 0 :=
  ylimits_formula [wPlotRow] "accuracy" (by decide)

/-- C8: melting the wide score table produces, for every wide row, exactly
two long-form rows — one per variable, positionally at `i` and `n + i` —
whose `value` fields carry the row's `train_score_mean` and
`test_score_mean` unchanged, and the reshape loses no information: the melt
is inverted exactly by `unmeltScores`. -/
theorem melt_score_roundtrip (rows : List ScoreRow) :
    (meltScores rows).length = 2 * rows.length ∧
    unmeltScores (meltScores rows) = rows ∧
    ∀ i : ℕ, i < rows.length → ∃ r, rows[i]? = some r ∧
      (meltScores rows)[i]? = some (meltTrainRow r) ∧
      (meltScores rows)[rows.length + i]? = some (meltTestRow r) ∧
      (meltTrainRow r).varName = "train_score_mean" ∧
      (meltTrainRow r).value = r.train_score_mean ∧
      (meltTestRow r).varName = "test_score_mean" ∧
      (meltTestRow r).value = r.test_score_mean := by
  refine ⟨?_, ?_, ?_⟩
  · simp [meltScores, two_mul]
  · unfold unmeltScores
    have hlen : (meltScores rows).length / 2 = rows.length := by
      simp only [meltScores, List.length_append, List.length_map]
      omega
    rw [hlen]
    unfold meltScores
    rw [List.take_left' (by simp), List.drop_left' (by simp)]
    rw [List.zip_map']
    rw [List.map_map]
    have hid : ∀ r : ScoreRow,
        ((fun pr : MeltedScoreRow × MeltedScoreRow =>
          ({ featureset_name := pr.1.featureset_name,
             learner_name := pr.1.learner_name, metric := pr.1.metric,
             training_set_size := pr.1.training_set_size,
             train_score_mean := pr.1.value, test_score_mean := pr.2.value,
             train_score_std := pr.1.train_score_std,
             test_score_std := pr.1.test_score_std } : ScoreRow)) ∘
          fun a => (meltTrainRow a, meltTestRow a)) r = r := fun r => rfl
    exact List.map_id'' hid rows
  · intro i hi
    refine ⟨rows[i], List.getElem?_eq_getElem hi, ?_, ?_, rfl, rfl, rfl, rfl⟩
    · unfold meltScores
      rw [List.getElem?_append_left (by simpa using hi)]
      rw [List.getElem?_map, List.getElem?_eq_getElem hi]
      rfl
    · unfold meltScores
      rw [List.getElem?_append_right (by simp)]
      simp only [List.length_map]
      have hsub : rows.length + i - rows.length = i := by omega
      rw [hsub, List.getElem?_map, List.getElem?_eq_getElem hi]
      rfl

/-- Witness for C8 on a one-row wide table, at index 0. -/
theorem melt_score_roundtrip_check :
    ∃ r, ([wScoreRow] : List ScoreRow)[0]? = some r ∧
      (meltScores [wScoreRow])[0]? = some (meltTrainRow r) ∧
      (meltScores [wScoreRow])[([wScoreRow] : List ScoreRow).length + 0]? =
        some (meltTestRow r) ∧
      (meltTrainRow r).varName = "train_score_mean" ∧
      (meltTrainRow r).value = r.train_score_mean ∧
      (meltTestRow r).varName = "test_score_mean" ∧
      (meltTestRow r).value = r.test_score_mean :=
  (melt_score_roundtrip [wScoreRow]).2.2 0 (by decide)

/-- C9 counterexample: the score frame does not keep everything except the
fit-time and version fields — the code also drops `train_set_name`; likewise
the time frame drops `train_set_name` beyond the four score fields and the
version fields. -/
theorem score_columns_drop_train_set_name :
    score_columns lcHeader =
      ["featureset_name", "learner_name", "metric", "training_set_size",
       "train_score_mean", "test_score_mean", "train_score_std",
       "test_score_std"] ∧
    "train_set_name" ∈ lcHeader ∧
    "train_set_name" ∉ claimedScoreExcluded ∧
    "train_set_name" ∉ score_columns lcHeader ∧
    score_columns lcHeader ≠ claimed_score_columns lcHeader ∧
    "train_set_name" ∉ claimedTimeExcluded ∧
    "train_set_name" ∉ time_columns lcHeader ∧
    time_columns lcHeader ≠ claimed_time_columns lcHeader := by decide

/-- C9 amended: the score frame keeps exactly the wide-table columns outside
`train_set_name`, the fit-time fields and the version fields; the time frame
keeps exactly the columns outside `train_set_name`, the four score fields
and the version fields. -/
theorem reshaper_column_selection (cols : List String) (c : String) :
    (c ∈ score_columns cols ↔ c ∈ cols ∧ c ∉ scoreExcluded) ∧
    (c ∈ time_columns cols ↔ c ∈ cols ∧ c ∉ timeExcluded) := by
  constructor
  · simp [score_columns, List.mem_filter]
  · simp [time_columns, List.mem_filter]

end Skll
